import Mathlib

set_option maxRecDepth 10000
set_option linter.unusedSectionVars false

/-! Verification of the MiMC arithmetization layer of the NIZKP benchmark.

The repository expresses one algebraic permutation (the MiMC round function)
in three proof paradigms: a bulletproof-style R1CS gadget, a Groth16 circuit,
and a STARK AIR with an execution-trace builder.  This file embeds the
relevant Rust functions as Lean definitions, generic over a commutative ring
`F` (each backend instantiates its own prime field, which is a commutative
ring), and proves the specification's claims about them.
-/

namespace NIZKP

/-- Compiled round count, `MIMC_ROUNDS` in src/rust/src/hash/mimc.rs. -/
def MIMC_ROUNDS : Nat := 255

/-- The fixed 32-byte randomness seed, `RANDOMNESS_SEED` in
src/rust/src/hash/mimc.rs (32 bytes of value 24). -/
def RANDOMNESS_SEED : List Nat := List.replicate 32 24

variable {F : Type} [CommRing F]

/-- Reference MiMC round recurrence on the full state, as written in the spec
(§4.1): `xl_{i+1} = xr_i + (xl_i + c_i)^3`, `xr_{i+1} = xl_i`, started at
`(xl_0, xr_0)`. -/
def mimcState : F → F → List F → F × F
  | xl, xr, [] => (xl, xr)
  | xl, xr, c :: cs => mimcState (xr + (xl + c) ^ 3) xl cs

/-- Reference permutation output: the final `xl` after all rounds (spec §4.1). -/
def mimcSpec (xl xr : F) (cs : List F) : F := (mimcState xl xr cs).1

namespace Snark

/-- Function `mimc` from src/rust/src/hash/mimc/snark.rs: for each constant `c`,
`tmp1 = xl + c`, `tmp2 = tmp1.cube() + xr` (cube is square-then-multiply),
then `xr = xl; xl = tmp2`.  Returns the final `xl`. -/
def mimc : F → F → List F → F
  | xl, _, [] => xl
  | xl, xr, c :: cs => mimc ((xl + c) * (xl + c) * (xl + c) + xr) xl cs

end Snark

namespace Stark

/-- Function `mimc` from src/rust/src/hash/mimc/stark.rs: for each round constant `ci`,
`next_xl = xr + (xl + ci).cube()`, `xr = xl`, `xl = next_xl`.  Returns the
final `xl`. -/
def mimc : F → F → List F → F
  | xl, _, [] => xl
  | xl, xr, c :: cs => mimc (xr + (xl + c) * (xl + c) * (xl + c)) xl cs

end Stark

namespace Bulletproof

/-- Loop body of `mimc` from src/rust/src/hash/mimc/bulletproof.rs: for
`i in 0..mimc_rounds`, `tmp1 = xl + constants[i]`,
`tmp2 = tmp1 * tmp1 * tmp1 + xr`, `xr = xl`, `xl = tmp2`.  In the Rust source
an out-of-range index panics; it is unreachable when
`mimc_rounds <= constants.length`, which every call site guarantees. -/
def mimcLoop (constants : List F) (mimc_rounds : Nat) (i : Nat) (xl xr : F) : F :=
  if h : i < mimc_rounds then
    let tmp1 := xl + constants.getD i 0
    let tmp2 := tmp1 * tmp1 * tmp1 + xr
    mimcLoop constants mimc_rounds (i + 1) tmp2 xl
  else xl
termination_by mimc_rounds - i
decreasing_by omega

/-- Function `mimc` from src/rust/src/hash/mimc/bulletproof.rs. -/
def mimc (xl xr : F) (mimc_rounds : Nat) (constants : List F) : F :=
  mimcLoop constants mimc_rounds 0 xl xr

end Bulletproof

/-- Dropping `i` elements from a list of length `> i` exposes the `i`-th
element at the head. -/
theorem drop_getD_cons {α : Type} (d : α) :
    ∀ (cs : List α) (i : Nat), i < cs.length →
      cs.drop i = cs.getD i d :: cs.drop (i + 1) := by
  intro cs
  induction cs with
  | nil => intro i h; simp at h
  | cons c cs ih =>
    intro i h
    match i with
    | 0 => rfl
    | i + 1 =>
      simp only [List.drop_succ_cons, List.getD_cons_succ]
      exact ih i (by simpa using h)

theorem Snark.snark_mimc_eq_spec (cs : List F) :
    ∀ xl xr : F, Snark.mimc xl xr cs = mimcSpec xl xr cs := by
  induction cs with
  | nil => intro xl xr; rfl
  | cons c cs ih =>
    intro xl xr
    simp only [Snark.mimc, mimcSpec, mimcState]
    simp only [mimcSpec] at ih
    rw [ih]
    have h3 : (xl + c) * (xl + c) * (xl + c) + xr = xr + (xl + c) ^ 3 := by ring
    rw [h3]

theorem Stark.stark_mimc_eq_spec (cs : List F) :
    ∀ xl xr : F, Stark.mimc xl xr cs = mimcSpec xl xr cs := by
  induction cs with
  | nil => intro xl xr; rfl
  | cons c cs ih =>
    intro xl xr
    simp only [Stark.mimc, mimcSpec, mimcState]
    simp only [mimcSpec] at ih
    rw [ih]
    have h3 : xr + (xl + c) * (xl + c) * (xl + c) = xr + (xl + c) ^ 3 := by ring
    rw [h3]

theorem Bulletproof.mimcLoop_eq_spec (cs : List F) :
    ∀ (n i : Nat) (xl xr : F), i + n = cs.length →
      Bulletproof.mimcLoop cs cs.length i xl xr = mimcSpec xl xr (cs.drop i) := by
  intro n
  induction n with
  | zero =>
    intro i xl xr h
    rw [Bulletproof.mimcLoop, dif_neg (by omega)]
    rw [List.drop_eq_nil_of_le (by omega)]
    rfl
  | succ n ih =>
    intro i xl xr h
    rw [Bulletproof.mimcLoop, dif_pos (by omega)]
    rw [ih (i + 1) _ _ (by omega)]
    rw [drop_getD_cons (0 : F) cs i (by omega)]
    simp only [mimcSpec, mimcState]
    have h3 : (xl + cs.getD i 0) * (xl + cs.getD i 0) * (xl + cs.getD i 0) + xr
        = xr + (xl + cs.getD i 0) ^ 3 := by ring
    rw [h3]

/-- Claim C1: for every pair of ring elements `(xl, xr)` and every constants
sequence of length `R`, each of the three reference permutation functions
(`bulletproof::mimc`, `snark::mimc`, `stark::mimc`) returns the value `xl_R`
of the recurrence `xl_{i+1} = xr_i + (xl_i + c_i)^3`, `xr_{i+1} = xl_i`
started at `(xl, xr)`: all three compute the same MiMC round permutation and
return the final `xl` after `R` rounds. -/
theorem claim_C1 (xl xr : F) (R : Nat) (cs : List F) (h : cs.length = R) :
    Bulletproof.mimc xl xr R cs = mimcSpec xl xr cs ∧
    Snark.mimc xl xr cs = mimcSpec xl xr cs ∧
    Stark.mimc xl xr cs = mimcSpec xl xr cs := by
  refine ⟨?_, Snark.snark_mimc_eq_spec cs xl xr, Stark.stark_mimc_eq_spec cs xl xr⟩
  subst h
  have hmain := Bulletproof.mimcLoop_eq_spec cs cs.length 0 xl xr (by omega)
  simpa [Bulletproof.mimc] using hmain

/-- Witness for C1 at a concrete input over `ZMod 5`. -/
theorem claim_C1_witness :
    ([1, 2, 3] : List (ZMod 5)).length = 3 ∧
    (Bulletproof.mimc (1 : ZMod 5) 2 3 [1, 2, 3] = mimcSpec 1 2 [1, 2, 3] ∧
     Snark.mimc (1 : ZMod 5) 2 [1, 2, 3] = mimcSpec 1 2 [1, 2, 3] ∧
     Stark.mimc (1 : ZMod 5) 2 [1, 2, 3] = mimcSpec 1 2 [1, 2, 3]) :=
  ⟨by decide, claim_C1 1 2 3 [1, 2, 3] (by decide)⟩

/-! The STARK trace builder and AIR (src/rust/src/hash/mimc/stark.rs). -/

/-- Executable power-of-two test on naturals. -/
def isPow2 : Nat → Bool
  | 0 => false
  | 1 => true
  | n + 2 => ((n + 2) % 2 == 0) && isPow2 ((n + 2) / 2)
termination_by n => n
decreasing_by exact Nat.div_lt_self (by omega) (by omega)

theorem isPow2_iff : ∀ n : Nat, isPow2 n = true ↔ ∃ k, n = 2 ^ k := by
  intro n
  induction n using Nat.strong_induction_on with
  | _ n ih =>
    rcases n with _ | _ | m
    · constructor
      · intro h; simp [isPow2] at h
      · rintro ⟨k, hk⟩
        have hp : (0 : ℕ) < 2 ^ k := by positivity
        omega
    · constructor
      · intro _
        exact ⟨0, rfl⟩
      · intro _
        show isPow2 1 = true
        simp [isPow2]
    · rw [isPow2]
      constructor
      · intro h
        rw [Bool.and_eq_true, beq_iff_eq] at h
        obtain ⟨heven, hrec⟩ := h
        obtain ⟨k, hk⟩ := (ih ((m + 2) / 2) (Nat.div_lt_self (by omega) (by omega))).mp hrec
        refine ⟨k + 1, ?_⟩
        rw [pow_succ]
        omega
      · rintro ⟨k, hk⟩
        match k with
        | 0 => omega
        | k + 1 =>
          rw [pow_succ] at hk
          rw [Bool.and_eq_true, beq_iff_eq]
          refine ⟨by omega, (ih ((m + 2) / 2) (Nat.div_lt_self (by omega) (by omega))).mpr ⟨k, by omega⟩⟩

namespace Stark

/-- One application of the update closure passed to `trace.fill` in
`MiMCProver::build_trace`: from the state of row `step`, compute row
`step + 1` via `new_xl = xr + (xl + ci).cube()`, `new_xr = xl`, and
`new_ci = round_constants[step + 1]` when `step < mimc_rounds - 1`, else zero. -/
def stepState (R : Nat) (constants : List F) (step : Nat) (s : F × F × F) : F × F × F :=
  let xl := s.1
  let xr := s.2.1
  let ci := s.2.2
  (xr + (xl + ci) * (xl + ci) * (xl + ci), xl,
    if step < R - 1 then constants.getD (step + 1) 0 else 0)

/-- Row `n` of the execution trace: row 0 is the initial state set by the
init closure of `trace.fill`, and each later row is produced by `stepState`. -/
def traceRow (R : Nat) (constants : List F) (s0 : F × F × F) : Nat → F × F × F
  | 0 => s0
  | n + 1 => stepState R constants n (traceRow R constants s0 n)

/-- The full list of trace rows filled by `MiMCProver::build_trace`:
`R + 1` rows of width 3, row 0 being `(xl, xr, constants[0])`. -/
def traceRows (R : Nat) (constants : List F) (xl xr : F) : List (F × F × F) :=
  (List.range (R + 1)).map (traceRow R constants (xl, xr, constants.getD 0 0))

/-- Function `MiMCProver::build_trace`.  Here `R` is the compiled `MIMC_ROUNDS` constant the
function reads.  The two `debug_assert` checks of the source
(`mimc_rounds == round_constants.len()` and `trace_length >= 8`) are modelled
as failures, as is the trace-shape validation of `TraceTable::new`.
Modelled from the spec for the latter: `TraceTable::new` belongs to the
external winterfell library; per the spec (§4.4), the trace row count must
equal a power of two that is at least 8, and violating this is a fatal
error at trace-construction time. -/
def build_trace (R : Nat) (xl xr : F) (constants : List F) :
    Option (List (F × F × F)) :=
  if constants.length ≠ R then none
  else if R + 1 < 8 then none
  else if ¬ isPow2 (R + 1) then none
  else some (traceRows R constants xl xr)

/-- Function `MiMCProver::get_pub_inputs`: reads `(xl, xr)` from row 0, the result from
column 0 of the last row, and the round constants from column 2 of rows
`0 .. trace.length - 2`, into an array of size `R` (the compiled
`MIMC_ROUNDS`) that is zero beyond the filled prefix. -/
def get_pub_inputs (R : Nat) (trace : List (F × F × F)) : F × F × F × List F :=
  let last_step := trace.length - 1
  let round_constants := (List.range R).map fun i =>
    if i < trace.length - 1 then (trace.getD i (0, 0, 0)).2.2 else 0
  ((trace.getD 0 (0, 0, 0)).1, (trace.getD 0 (0, 0, 0)).2.1,
    (trace.getD last_step (0, 0, 0)).1, round_constants)

/-- The transition-constraint degrees declared in `MiMCAir::new`. -/
def airDegrees : List Nat := [3, 1]

/-- The assertion count declared in `MiMCAir::new`. -/
def airNumAssertions : Nat := 3

/-- A single-cell boundary assertion, as built by `Assertion::single(column,
step, value)`. -/
structure AssertionS (F : Type) where
  column : Nat
  step : Nat
  value : F
deriving DecidableEq

/-- Function `are_equal` from stark.rs: zero exactly when the two arguments agree. -/
def are_equal (a b : F) : F := a - b

/-- Column projection of a width-3 trace row. -/
def colVal (r : F × F × F) : Nat → F
  | 0 => r.1
  | 1 => r.2.1
  | _ => r.2.2

/-- Function `MiMCAir::evaluate_transition` on one evaluation frame (current row and
next row); the result buffer starts at zero, so the two accumulated entries
are exactly the two `are_equal` values. -/
def evaluate_transition (current next : F × F × F) : F × F :=
  let current_xl := current.1
  let current_xr := current.2.1
  let current_ci := current.2.2
  let next_xl := next.1
  let next_xr := next.2.1
  let current_xlci := current_xl + current_ci
  let expected_xl := current_xr + current_xlci * current_xlci * current_xlci
  let expected_xr := current_xl
  (are_equal next_xl expected_xl, are_equal next_xr expected_xr)

/-- Function `MiMCAir::get_assertions`: column 0 of row 0 is the public `xl`, column 1
of row 0 is the public `xr`, and column 0 of the last row is the claimed
result. -/
def get_assertions (trace_length : Nat) (xl xr result : F) : List (AssertionS F) :=
  [⟨0, 0, xl⟩, ⟨1, 0, xr⟩, ⟨0, trace_length - 1, result⟩]

/-- An assertion holds on a trace when the addressed cell has the asserted
value. -/
def assertionHolds (rows : List (F × F × F)) (a : AssertionS F) : Prop :=
  colVal (rows.getD a.step (0, 0, 0)) a.column = a.value

end Stark

/-- Taking one more element appends the element at the cut point. -/
theorem take_getD_succ {α : Type} (d : α) :
    ∀ (cs : List α) (i : Nat), i < cs.length →
      cs.take (i + 1) = cs.take i ++ [cs.getD i d] := by
  intro cs
  induction cs with
  | nil => intro i h; simp at h
  | cons c l ih =>
    intro i h
    match i with
    | 0 => rfl
    | i + 1 =>
      simp only [List.take_succ_cons, List.getD_cons_succ, List.cons_append]
      rw [ih i (by simpa using h)]

theorem mimcState_append (l1 : List F) :
    ∀ (xl xr : F) (l2 : List F),
      mimcState xl xr (l1 ++ l2) =
        mimcState (mimcState xl xr l1).1 (mimcState xl xr l1).2 l2 := by
  induction l1 with
  | nil => intro xl xr l2; rfl
  | cons c l ih =>
    intro xl xr l2
    simp only [List.cons_append, mimcState]
    exact ih _ _ l2

theorem range_map_getD {α : Type} (f : Nat → α) (d : α) (n i : Nat) (h : i < n) :
    ((List.range n).map f).getD i d = f i := by
  rw [List.getD_eq_getElem?_getD, List.getElem?_map, List.getElem?_range h]
  rfl

/-- Reading every position of a list back with `getD` reproduces the list. -/
theorem range_map_getD_self {α : Type} (d : α) :
    ∀ l : List α, (List.range l.length).map (fun i => l.getD i d) = l := by
  intro l
  induction l with
  | nil => rfl
  | cons c l ih =>
    rw [List.length_cons, List.range_succ_eq_map, List.map_cons, List.map_map]
    have hcongr : ∀ i ∈ List.range l.length,
        ((fun i => (c :: l).getD i d) ∘ Nat.succ) i = l.getD i d := by
      intro i _
      simp [Function.comp]
    rw [List.map_congr_left hcongr, ih]
    rfl

theorem Stark.stepState_eq (R : Nat) (cs : List F) (i : Nat) (hi : i < R)
    (s : F × F × F) :
    Stark.stepState R cs i s =
      (s.2.1 + (s.1 + s.2.2) ^ 3, s.1,
        if i + 1 < R then cs.getD (i + 1) 0 else 0) := by
  have h3 : s.2.1 + (s.1 + s.2.2) * (s.1 + s.2.2) * (s.1 + s.2.2)
      = s.2.1 + (s.1 + s.2.2) ^ 3 := by ring
  simp only [Stark.stepState]
  rw [h3]
  by_cases h2 : i + 1 < R
  · rw [if_pos (show i < R - 1 by omega), if_pos h2]
  · rw [if_neg (show ¬ i < R - 1 by omega), if_neg h2]

/-- Row `n` of the trace carries the reference permutation state after `n`
rounds, with column 2 holding constant `n` while rounds remain and zero in
the last row. -/
theorem Stark.traceRow_spec (R : Nat) (cs : List F) (xl xr : F)
    (h : cs.length = R) :
    ∀ n, n ≤ R →
      Stark.traceRow R cs (xl, xr, cs.getD 0 0) n =
        ((mimcState xl xr (cs.take n)).1, (mimcState xl xr (cs.take n)).2,
          if n < R then cs.getD n 0 else 0) := by
  intro n
  induction n with
  | zero =>
    intro _
    simp only [Stark.traceRow, List.take_zero, mimcState]
    by_cases hR : 0 < R
    · rw [if_pos hR]
    · rw [if_neg hR]
      have hnil : cs = [] := by
        cases cs with
        | nil => rfl
        | cons a l => simp at h; omega
      subst hnil; rfl
  | succ n ih =>
    intro hn
    have hnR : n < R := by omega
    show Stark.stepState R cs n (Stark.traceRow R cs (xl, xr, cs.getD 0 0) n) = _
    rw [ih (by omega), if_pos hnR,
      Stark.stepState_eq R cs n hnR,
      take_getD_succ (0 : F) cs n (by omega), mimcState_append]
    simp only [mimcState]

theorem Stark.traceRows_length (R : Nat) (cs : List F) (xl xr : F) :
    (Stark.traceRows R cs xl xr).length = R + 1 := by
  simp [Stark.traceRows]

theorem Stark.traceRows_getD (R : Nat) (cs : List F) (xl xr : F) (i : Nat)
    (h : i ≤ R) :
    (Stark.traceRows R cs xl xr).getD i (0, 0, 0) =
      Stark.traceRow R cs (xl, xr, cs.getD 0 0) i :=
  range_map_getD _ _ _ _ (by omega)

theorem Stark.build_trace_eq (R : Nat) (xl xr : F) (cs : List F)
    (h : cs.length = R) (h8 : 8 ≤ R + 1) (hp : isPow2 (R + 1) = true) :
    Stark.build_trace R xl xr cs = some (Stark.traceRows R cs xl xr) := by
  rw [Stark.build_trace, if_neg (by omega), if_neg (by omega),
    if_neg (show ¬¬(isPow2 (R + 1) = true) by simp [hp])]

theorem Stark.traceRows_last (R : Nat) (cs : List F) (xl xr : F)
    (h : cs.length = R) :
    (Stark.traceRows R cs xl xr).getD R (0, 0, 0) =
      ((mimcState xl xr cs).1, (mimcState xl xr cs).2, 0) := by
  rw [Stark.traceRows_getD R cs xl xr R (by omega),
    Stark.traceRow_spec R cs xl xr h R (by omega), if_neg (by omega)]
  rw [show cs.take R = cs from by rw [← h]; exact List.take_length cs]

/-- Claim C2: for every `(xl, xr)` and constants of length `R = MIMC_ROUNDS`,
the trace built by `MiMCProver::build_trace` has row 0 equal to
`(xl, xr, c_0)`; every row `i + 1` follows from row `i` by the MiMC round
transition, with column 2 holding `c_{i+1}` when `i + 1 < R` and zero in the
last row; column 0 of the last row equals `mimc(xl, xr, constants)`; and
`get_pub_inputs` returns exactly `(xl, xr, mimc(xl, xr, constants), c_0..c_{R-1})`. -/
theorem claim_C2 (xl xr : F) (constants : List F)
    (h : constants.length = MIMC_ROUNDS) :
    ∃ rows, Stark.build_trace MIMC_ROUNDS xl xr constants = some rows ∧
      rows.length = MIMC_ROUNDS + 1 ∧
      rows.getD 0 (0, 0, 0) = (xl, xr, constants.getD 0 0) ∧
      (∀ i < MIMC_ROUNDS,
        rows.getD (i + 1) (0, 0, 0) =
          ((rows.getD i (0, 0, 0)).2.1 +
             ((rows.getD i (0, 0, 0)).1 + (rows.getD i (0, 0, 0)).2.2) ^ 3,
           (rows.getD i (0, 0, 0)).1,
           if i + 1 < MIMC_ROUNDS then constants.getD (i + 1) 0 else 0)) ∧
      (rows.getD MIMC_ROUNDS (0, 0, 0)).1 = Stark.mimc xl xr constants ∧
      Stark.get_pub_inputs MIMC_ROUNDS rows =
        (xl, xr, Stark.mimc xl xr constants, constants) := by
  have h8 : 8 ≤ MIMC_ROUNDS + 1 := by norm_num [MIMC_ROUNDS]
  have hp : isPow2 (MIMC_ROUNDS + 1) = true :=
    (isPow2_iff _).mpr ⟨8, by norm_num [MIMC_ROUNDS]⟩
  refine ⟨Stark.traceRows MIMC_ROUNDS constants xl xr,
    Stark.build_trace_eq _ _ _ _ h h8 hp,
    Stark.traceRows_length _ _ _ _, ?_, ?_, ?_, ?_⟩
  · rw [Stark.traceRows_getD _ _ _ _ 0 (by omega)]
    rfl
  · intro i hi
    rw [Stark.traceRows_getD _ _ _ _ (i + 1) (by omega),
      Stark.traceRows_getD _ _ _ _ i (by omega)]
    show Stark.stepState MIMC_ROUNDS constants i _ = _
    rw [Stark.stepState_eq MIMC_ROUNDS constants i hi]
  · rw [Stark.traceRows_last _ _ _ _ h, Stark.stark_mimc_eq_spec]
    rfl
  · simp only [Stark.get_pub_inputs, Stark.traceRows_length]
    rw [Stark.traceRows_getD _ _ _ _ 0 (by omega),
      show MIMC_ROUNDS + 1 - 1 = MIMC_ROUNDS from rfl,
      Stark.traceRows_last _ _ _ _ h, Stark.stark_mimc_eq_spec, mimcSpec]
    have hmap : ∀ i ∈ List.range MIMC_ROUNDS,
        (if i < MIMC_ROUNDS then
            ((Stark.traceRows MIMC_ROUNDS constants xl xr).getD i (0, 0, 0)).2.2
          else 0) = constants.getD i 0 := by
      intro i hi
      rw [List.mem_range] at hi
      rw [if_pos hi, Stark.traceRows_getD _ _ _ _ i (by omega),
        Stark.traceRow_spec _ _ _ _ h i (by omega), if_pos hi]
    rw [List.map_congr_left hmap, ← h, range_map_getD_self]
    rfl

/-- Witness for C2 at a concrete input over `ZMod 5`. -/
theorem claim_C2_witness :
    (List.replicate 255 (1 : ZMod 5)).length = MIMC_ROUNDS ∧
    ∃ rows,
      Stark.build_trace MIMC_ROUNDS (1 : ZMod 5) 2 (List.replicate 255 1) = some rows ∧
      rows.length = MIMC_ROUNDS + 1 ∧
      rows.getD 0 (0, 0, 0) = (1, 2, (List.replicate 255 (1 : ZMod 5)).getD 0 0) ∧
      (∀ i < MIMC_ROUNDS,
        rows.getD (i + 1) (0, 0, 0) =
          ((rows.getD i (0, 0, 0)).2.1 +
             ((rows.getD i (0, 0, 0)).1 + (rows.getD i (0, 0, 0)).2.2) ^ 3,
           (rows.getD i (0, 0, 0)).1,
           if i + 1 < MIMC_ROUNDS then (List.replicate 255 (1 : ZMod 5)).getD (i + 1) 0 else 0)) ∧
      (rows.getD MIMC_ROUNDS (0, 0, 0)).1 = Stark.mimc 1 2 (List.replicate 255 1) ∧
      Stark.get_pub_inputs MIMC_ROUNDS rows =
        (1, 2, Stark.mimc 1 2 (List.replicate 255 1), List.replicate 255 1) :=
  ⟨by simp [MIMC_ROUNDS], claim_C2 1 2 (List.replicate 255 1) (by simp [MIMC_ROUNDS])⟩

/-- The transition constraints evaluate to zero on any row and its successor
produced by the trace step function. -/
theorem Stark.evaluate_transition_step (R : Nat) (cs : List F) (i : Nat)
    (s : F × F × F) :
    Stark.evaluate_transition s (Stark.stepState R cs i s) = (0, 0) := by
  simp [Stark.evaluate_transition, Stark.stepState, Stark.are_equal]

/-- Claim C3: `MiMCAir` declares exactly two transition constraints, of
degrees 3 and 1, and exactly three boundary assertions (column 0 row 0 is the
public `xl`, column 1 row 0 the public `xr`, column 0 of the last row the
claimed image); on every trace produced by `build_trace` the transition
constraints evaluate to `(0, 0)` on all consecutive row pairs and the three
assertions hold. -/
theorem claim_C3 (xl xr : F) (constants : List F) (rows : List (F × F × F))
    (h : constants.length = MIMC_ROUNDS)
    (hb : Stark.build_trace MIMC_ROUNDS xl xr constants = some rows) :
    Stark.airDegrees = [3, 1] ∧
    Stark.airNumAssertions = 3 ∧
    Stark.get_assertions rows.length xl xr (Stark.mimc xl xr constants) =
      [⟨0, 0, xl⟩, ⟨1, 0, xr⟩,
       ⟨0, rows.length - 1, Stark.mimc xl xr constants⟩] ∧
    (∀ i < MIMC_ROUNDS,
      Stark.evaluate_transition (rows.getD i (0, 0, 0))
        (rows.getD (i + 1) (0, 0, 0)) = (0, 0)) ∧
    (∀ a ∈ Stark.get_assertions rows.length xl xr (Stark.mimc xl xr constants),
      Stark.assertionHolds rows a) := by
  have h8 : 8 ≤ MIMC_ROUNDS + 1 := by norm_num [MIMC_ROUNDS]
  have hp : isPow2 (MIMC_ROUNDS + 1) = true :=
    (isPow2_iff _).mpr ⟨8, by norm_num [MIMC_ROUNDS]⟩
  have hrows : rows = Stark.traceRows MIMC_ROUNDS constants xl xr := by
    have := Stark.build_trace_eq MIMC_ROUNDS xl xr constants h h8 hp
    rw [this, Option.some.injEq] at hb
    exact hb.symm
  subst hrows
  refine ⟨rfl, rfl, rfl, ?_, ?_⟩
  · intro i hi
    rw [Stark.traceRows_getD _ _ _ _ (i + 1) (by omega),
      Stark.traceRows_getD _ _ _ _ i (by omega)]
    exact Stark.evaluate_transition_step _ _ _ _
  · intro a ha
    rw [Stark.traceRows_length] at ha
    simp only [Stark.get_assertions, List.mem_cons, List.not_mem_nil, or_false] at ha
    rcases ha with ha | ha | ha <;> subst ha <;>
      simp only [Stark.assertionHolds]
    · rw [Stark.traceRows_getD _ _ _ _ 0 (by omega)]
      rfl
    · rw [Stark.traceRows_getD _ _ _ _ 0 (by omega)]
      rfl
    · rw [show MIMC_ROUNDS + 1 - 1 = MIMC_ROUNDS from rfl,
        Stark.traceRows_last _ _ _ _ h, Stark.stark_mimc_eq_spec]
      rfl

/-- Witness for C3 at a concrete input over `ZMod 5`. -/
theorem claim_C3_witness :
    (List.replicate 255 (1 : ZMod 5)).length = MIMC_ROUNDS ∧
    Stark.build_trace MIMC_ROUNDS (1 : ZMod 5) 2 (List.replicate 255 1) =
      some (Stark.traceRows MIMC_ROUNDS (List.replicate 255 1) 1 2) ∧
    (∀ i < MIMC_ROUNDS,
      Stark.evaluate_transition
        ((Stark.traceRows MIMC_ROUNDS (List.replicate 255 (1 : ZMod 5)) 1 2).getD i (0, 0, 0))
        ((Stark.traceRows MIMC_ROUNDS (List.replicate 255 (1 : ZMod 5)) 1 2).getD (i + 1) (0, 0, 0)) =
        (0, 0)) :=
  ⟨by simp [MIMC_ROUNDS],
   Stark.build_trace_eq _ _ _ _ (by simp [MIMC_ROUNDS]) (by norm_num [MIMC_ROUNDS])
     ((isPow2_iff _).mpr ⟨8, by norm_num [MIMC_ROUNDS]⟩),
   (claim_C3 1 2 (List.replicate 255 1) _ (by simp [MIMC_ROUNDS])
     (Stark.build_trace_eq _ _ _ _ (by simp [MIMC_ROUNDS]) (by norm_num [MIMC_ROUNDS])
       ((isPow2_iff _).mpr ⟨8, by norm_num [MIMC_ROUNDS]⟩))).2.2.2.1⟩

/-- Claim C7: a STARK trace whose row count `R + 1` is not a power of two or
is below 8 fails deterministically at trace-construction time; a successful
construction always has exactly `R + 1` rows (the shape is never silently
adjusted); and `build_trace` with `R = 6` (row count 7) always fails. -/
theorem claim_C7 (R : Nat) (xl xr : F) (cs : List F) :
    ((cs.length = R ∧ ((∀ k, R + 1 ≠ 2 ^ k) ∨ R + 1 < 8)) →
      Stark.build_trace R xl xr cs = none) ∧
    (∀ rows, Stark.build_trace R xl xr cs = some rows →
      rows.length = R + 1) ∧
    (∀ (xl' xr' : F) (cs' : List F), Stark.build_trace 6 xl' xr' cs' = none) := by
  refine ⟨?_, ?_, ?_⟩
  · rintro ⟨hlen, hbad⟩
    rw [Stark.build_trace, if_neg (by omega)]
    rcases hbad with hnp | h8
    · have hfalse : isPow2 (R + 1) = false := by
        rcases hh : isPow2 (R + 1) with _ | _
        · rfl
        · exact absurd ((isPow2_iff _).mp hh) (by simpa using hnp)
      by_cases h8 : R + 1 < 8
      · rw [if_pos h8]
      · rw [if_neg h8, if_pos (by simp [hfalse])]
    · rw [if_pos h8]
  · intro rows hrows
    rw [Stark.build_trace] at hrows
    split_ifs at hrows
    rw [Option.some.injEq] at hrows
    rw [← hrows, Stark.traceRows_length]
  · intro xl' xr' cs'
    rw [Stark.build_trace]
    split_ifs <;> first | rfl | omega

/-- Witness for C7 at a concrete input over `ZMod 5` (round count 4, row
count 5, which is below 8). -/
theorem claim_C7_witness :
    Stark.build_trace 4 (0 : ZMod 5) 0 (List.replicate 4 0) = none :=
  (claim_C7 4 0 0 (List.replicate 4 0)).1 ⟨by simp, Or.inr (by omega)⟩

/-! The Groth16 circuit synthesis (src/rust/src/hash/mimc/snark.rs).

`MiMCCircuit::synthesize` is generic over a bellman `ConstraintSystem`.  The
model below records the constraint-system shape (allocation counters and the
enforced `A * B = C` constraints) and threads the optional witness values the
way the Rust code does.  The flag `evalW` distinguishes the two constraint
systems the repository drives the circuit with: the proving assignment
evaluates every witness closure (`evalW = true`), while the keypair assembly
used for parameter generation ignores the closures (`evalW = false`). -/

namespace Snark

/-- A bellman variable: the fixed `CS::one`, a public input allocated by
`alloc_input`, or a private (auxiliary) variable allocated by `alloc`. -/
inductive Var where
  | one : Var
  | inp : Nat → Var
  | aux : Nat → Var
deriving DecidableEq

/-- A bellman linear combination: coefficient-tagged variables in build
order; `lc + v` contributes `(v, 1)` and `(coeff, CS::one())` contributes
`(one, coeff)`. -/
abbrev LC (F : Type) := List (Var × F)

/-- Shape of a bellman constraint system after synthesis. -/
structure CSState (F : Type) where
  numInputs : Nat
  numAux : Nat
  constraints : List (LC F × LC F × LC F)
deriving DecidableEq

/-- The constraint system before synthesis starts. -/
def initState : CSState F := ⟨0, 0, []⟩

/-- Outcome of `synthesize`: normal return, an
`Err(SynthesisError::AssignmentMissing)` propagated by `?`, or a Rust panic
(a failed `assert_eq!`, or `Option::unwrap` on `None`). -/
inductive SynthResult where
  | ok : SynthResult
  | errMissing : SynthResult
  | crashed : SynthResult
deriving DecidableEq

/-- Method `cs.alloc`: a constraint system that evaluates witness closures returns
`Err(AssignmentMissing)` (here `none`) when the value is absent, leaving the
system unchanged; otherwise a fresh auxiliary variable is allocated. -/
def alloc (evalW : Bool) (v : Option F) (st : CSState F) :
    Option (Var × CSState F) :=
  if evalW && v.isNone then none
  else some (Var.aux st.numAux, { st with numAux := st.numAux + 1 })

/-- Method `cs.alloc_input`: like `alloc` but for public input variables. -/
def allocInput (evalW : Bool) (v : Option F) (st : CSState F) :
    Option (Var × CSState F) :=
  if evalW && v.isNone then none
  else some (Var.inp st.numInputs, { st with numInputs := st.numInputs + 1 })

/-- Method `cs.enforce(a, b, c)` appends one constraint. -/
def enforce (st : CSState F) (a b c : LC F) : CSState F :=
  { st with constraints := st.constraints ++ [(a, b, c)] }

/-- The eager computation of `new_xl_value` in a round:
`xl_value.map(|e| { e += c; e *= tmp_value.unwrap(); e += xr_value.unwrap(); e })`.
The closure runs whenever `xl_value` is `Some`, and unwrapping a `None`
there is a Rust panic, modelled as the outer `none`. -/
def newXlValue (c : F) (xlv xrv tmpv : Option F) : Option (Option F) :=
  match xlv with
  | none => some none
  | some e =>
    match tmpv, xrv with
    | some t, some r => some (some ((e + c) * t + r))
    | _, _ => none

/-- The round loop of `MiMCCircuit::synthesize`, iterating over the
remaining constants with `i` the current round index and `R` the compiled
`MIMC_ROUNDS`: allocate `tmp`, enforce `tmp = (xL + Ci)^2`, compute
`new_xl_value` eagerly, allocate `new_xl` (as a public input in the final
round), enforce `new_xL - xR = tmp * (xL + Ci)`, then shift `xr := xl`. -/
def synthLoop (evalW : Bool) (R : Nat) :
    List F → Nat → Var → Option F → Var → Option F → CSState F →
    CSState F × SynthResult
  | [], _, _, _, _, _, st => (st, .ok)
  | c :: rest, i, xl, xlv, xr, xrv, st =>
    let tmp_value := xlv.map fun e => (e + c) * (e + c)
    match alloc evalW tmp_value st with
    | none => (st, .errMissing)
    | some (tmp, st1) =>
      let st2 := enforce st1 [(xl, 1), (Var.one, c)] [(xl, 1), (Var.one, c)]
        [(tmp, 1)]
      match newXlValue c xlv xrv tmp_value with
      | none => (st2, .crashed)
      | some nv =>
        match (if i = R - 1 then allocInput evalW nv st2
               else alloc evalW nv st2) with
        | none => (st2, .errMissing)
        | some (new_xl, st3) =>
          let st4 := enforce st3 [(tmp, 1)] [(xl, 1), (Var.one, c)]
            [(new_xl, 1), (xr, -1)]
          synthLoop evalW R rest (i + 1) new_xl nv xl xlv st4

/-- Function `MiMCCircuit::synthesize`: asserts the constants length against the
compiled round count `R` (a failed `assert_eq!` is a panic, before anything
is allocated), allocates the preimage variables `xl` and `xr`, then runs the
round loop. -/
def synthesize (evalW : Bool) (R : Nat) (xlO xrO : Option F)
    (constants : List F) : CSState F × SynthResult :=
  if constants.length ≠ R then (initState, .crashed)
  else
    match alloc evalW xlO initState with
    | none => (initState, .errMissing)
    | some (xl, st1) =>
      match alloc evalW xrO st1 with
      | none => (st1, .errMissing)
      | some (xr, st2) =>
        synthLoop evalW R constants 0 xl xlO xr xrO st2

/-- The variable holding `xl` at the start of round `i`. -/
def xlVarS (i : Nat) : Var := if i = 0 then .aux 0 else .aux (2 * i + 1)

/-- The variable holding `xr` at the start of round `i`. -/
def xrVarS (i : Nat) : Var := if i = 0 then .aux 1 else xlVarS (i - 1)

/-- The `tmp` (square) variable allocated in round `i`. -/
def tmpVarS (i : Nat) : Var := .aux (2 * i + 2)

/-- The `new_xl` variable allocated in round `i` of an `R`-round circuit:
the single public input in the final round, a private variable otherwise. -/
def newXlVarS (R i : Nat) : Var := if i = R - 1 then .inp 0 else .aux (2 * i + 3)

/-- The two constraints enforced in round `i`:
`(xL + Ci) * (xL + Ci) = tmp` and `tmp * (xL + Ci) = new_xL - xR`. -/
def roundConstraints (R : Nat) (c : F) (i : Nat) :
    List (LC F × LC F × LC F) :=
  [([(xlVarS i, 1), (.one, c)], [(xlVarS i, 1), (.one, c)], [(tmpVarS i, 1)]),
   ([(tmpVarS i, 1)], [(xlVarS i, 1), (.one, c)],
    [(newXlVarS R i, 1), (xrVarS i, -1)])]

/-- Closed form of the circuit produced by a successful synthesis:
one public input, `2R + 1` private variables, and the `2R` round
constraints in order. -/
def circuitShape (R : Nat) (constants : List F) : CSState F :=
  { numInputs := 1
    numAux := 2 * R + 1
    constraints :=
      ((List.range R).map fun i => roundConstraints R (constants.getD i 0) i).flatten }

theorem alloc_ok (evalW : Bool) (v : Option F) (st : CSState F)
    (h : evalW = true → v.isSome = true) :
    alloc evalW v st =
      some (Var.aux st.numAux, { st with numAux := st.numAux + 1 }) := by
  cases evalW with
  | false => rfl
  | true =>
    cases v with
    | none => exact absurd (h rfl) (by simp)
    | some a => rfl

theorem allocInput_ok (evalW : Bool) (v : Option F) (st : CSState F)
    (h : evalW = true → v.isSome = true) :
    allocInput evalW v st =
      some (Var.inp st.numInputs, { st with numInputs := st.numInputs + 1 }) := by
  cases evalW with
  | false => rfl
  | true =>
    cases v with
    | none => exact absurd (h rfl) (by simp)
    | some a => rfl

/-- One round of the loop when the witness is fully present. -/
theorem synthLoop_cons_some (evalW : Bool) (R i : Nat) (c : F) (rest : List F)
    (xl xr : Var) (e r : F) (st : CSState F) :
    synthLoop evalW R (c :: rest) i xl (some e) xr (some r) st =
      synthLoop evalW R rest (i + 1)
        (if i = R - 1 then Var.inp st.numInputs else Var.aux (st.numAux + 1))
        (some ((e + c) * ((e + c) * (e + c)) + r)) xl (some e)
        { numInputs := if i = R - 1 then st.numInputs + 1 else st.numInputs,
          numAux := if i = R - 1 then st.numAux + 1 else st.numAux + 2,
          constraints := st.constraints ++
            [([(xl, 1), (Var.one, c)], [(xl, 1), (Var.one, c)],
              [(Var.aux st.numAux, 1)]),
             ([(Var.aux st.numAux, 1)], [(xl, 1), (Var.one, c)],
              [((if i = R - 1 then Var.inp st.numInputs
                 else Var.aux (st.numAux + 1)), 1), (xr, -1)])] } := by
  by_cases hi : i = R - 1 <;>
    simp [synthLoop, alloc, allocInput, enforce, newXlValue, hi]

/-- One round of the loop when `xl_value` is absent and the constraint
system ignores witness closures (parameter generation). -/
theorem synthLoop_cons_none (R i : Nat) (c : F) (rest : List F)
    (xl xr : Var) (xrv : Option F) (st : CSState F) :
    synthLoop false R (c :: rest) i xl none xr xrv st =
      synthLoop false R rest (i + 1)
        (if i = R - 1 then Var.inp st.numInputs else Var.aux (st.numAux + 1))
        none xl none
        { numInputs := if i = R - 1 then st.numInputs + 1 else st.numInputs,
          numAux := if i = R - 1 then st.numAux + 1 else st.numAux + 2,
          constraints := st.constraints ++
            [([(xl, 1), (Var.one, c)], [(xl, 1), (Var.one, c)],
              [(Var.aux st.numAux, 1)]),
             ([(Var.aux st.numAux, 1)], [(xl, 1), (Var.one, c)],
              [((if i = R - 1 then Var.inp st.numInputs
                 else Var.aux (st.numAux + 1)), 1), (xr, -1)])] } := by
  by_cases hi : i = R - 1 <;>
    simp [synthLoop, alloc, allocInput, enforce, newXlValue, hi]

/-- Invariant of the round loop on a good run: starting round `i` with the
working variables in the canonical positions, the loop completes and appends
exactly the round constraints for rounds `i .. R - 1`, ending with one
public input and `2R + 1` auxiliary variables. -/
theorem synthLoop_shape (evalW : Bool) (R : Nat) (cs : List F) :
    ∀ (rest : List F) (i : Nat) (st : CSState F) (xlv xrv : Option F),
      rest ≠ [] →
      i + rest.length = R →
      rest = cs.drop i →
      st.numInputs = 0 →
      st.numAux = 2 * i + 2 →
      (evalW = true → xlv.isSome = true) →
      (xlv.isSome = true → xrv.isSome = true) →
      synthLoop evalW R rest i (xlVarS i) xlv (xrVarS i) xrv st =
        ({ numInputs := 1, numAux := 2 * R + 1,
           constraints := st.constraints ++
             ((List.range' i rest.length).map
               fun j => roundConstraints R (cs.getD j 0) j).flatten },
         .ok) := by
  intro rest
  induction rest with
  | nil => intro i st xlv xrv hne; exact absurd rfl hne
  | cons c rest ih =>
    intro i st xlv xrv _ hlen hdrop hinp haux hev hsx
    have hilt : i < cs.length := by
      by_contra hle
      rw [List.drop_eq_nil_of_le (by omega)] at hdrop
      simp at hdrop
    rw [drop_getD_cons (0 : F) cs i hilt] at hdrop
    have hc : c = cs.getD i 0 := (List.cons_eq_cons.mp hdrop).1
    have hrest : rest = cs.drop (i + 1) := (List.cons_eq_cons.mp hdrop).2
    subst hc
    cases rest with
    | nil =>
      simp only [List.length_cons, List.length_nil] at hlen
      have hiR : i = R - 1 := by omega
      have hif : ∀ (α : Type) (a b : α), (if i = R - 1 then a else b) = a :=
        fun α a b => if_pos hiR
      have hrec :
          ({ numInputs := if i = R - 1 then st.numInputs + 1 else st.numInputs,
             numAux := if i = R - 1 then st.numAux + 1 else st.numAux + 2,
             constraints := st.constraints ++
               [([(xlVarS i, 1), (Var.one, cs.getD i 0)],
                 [(xlVarS i, 1), (Var.one, cs.getD i 0)],
                 [(Var.aux st.numAux, 1)]),
                ([(Var.aux st.numAux, 1)],
                 [(xlVarS i, 1), (Var.one, cs.getD i 0)],
                 [((if i = R - 1 then Var.inp st.numInputs
                    else Var.aux (st.numAux + 1)), 1), (xrVarS i, -1)])] }
            : CSState F) =
          { numInputs := 1, numAux := 2 * R + 1,
            constraints := st.constraints ++
              ((List.range' i 1).map
                fun j => roundConstraints R (cs.getD j 0) j).flatten } := by
        simp only [List.range'_one, List.map_cons, List.map_nil,
          List.flatten_cons, List.flatten_nil, List.append_nil,
          roundConstraints, tmpVarS, newXlVarS, hif, hinp, haux,
          CSState.mk.injEq]
        exact ⟨trivial, by omega, trivial⟩
      cases xlv with
      | some e =>
        obtain ⟨r, hxrv⟩ : ∃ r, xrv = some r := by
          cases xrv with
          | some r => exact ⟨r, rfl⟩
          | none => exact absurd (hsx rfl) (by simp)
        subst hxrv
        rw [synthLoop_cons_some]
        simp only [synthLoop, List.length_cons, List.length_nil, Nat.zero_add]
        rw [hrec]
      | none =>
        have hef : evalW = false := by
          cases evalW with
          | false => rfl
          | true => exact absurd (hev rfl) (by simp)
        subst hef
        rw [synthLoop_cons_none]
        simp only [synthLoop, List.length_cons, List.length_nil, Nat.zero_add]
        rw [hrec]
    | cons c' rest' =>
      simp only [List.length_cons] at hlen
      have hiR : i ≠ R - 1 := by omega
      have hif : ∀ (α : Type) (a b : α), (if i = R - 1 then a else b) = b :=
        fun α a b => if_neg hiR
      have hxl1 : Var.aux (st.numAux + 1) = xlVarS (i + 1) := by
        have hxn : st.numAux + 1 = 2 * (i + 1) + 1 := by omega
        rw [xlVarS, if_neg (Nat.succ_ne_zero i), hxn]
      have hxr1 : xlVarS i = xrVarS (i + 1) := by
        simp [xrVarS]
      have hrec :
          ∀ nv : Option F,
          (evalW = true → nv.isSome = true) →
          (nv.isSome = true → xlv.isSome = true) →
          synthLoop evalW R (c' :: rest') (i + 1)
            (if i = R - 1 then Var.inp st.numInputs else Var.aux (st.numAux + 1))
            nv (xlVarS i) xlv
            { numInputs := if i = R - 1 then st.numInputs + 1 else st.numInputs,
              numAux := if i = R - 1 then st.numAux + 1 else st.numAux + 2,
              constraints := st.constraints ++
                [([(xlVarS i, 1), (Var.one, cs.getD i 0)],
                  [(xlVarS i, 1), (Var.one, cs.getD i 0)],
                  [(Var.aux st.numAux, 1)]),
                 ([(Var.aux st.numAux, 1)],
                  [(xlVarS i, 1), (Var.one, cs.getD i 0)],
                  [((if i = R - 1 then Var.inp st.numInputs
                     else Var.aux (st.numAux + 1)), 1), (xrVarS i, -1)])] } =
            ({ numInputs := 1, numAux := 2 * R + 1,
               constraints := st.constraints ++
                 ((List.range' i ((c' :: rest').length + 1)).map
                   fun j => roundConstraints R (cs.getD j 0) j).flatten },
             .ok) := by
        intro nv hnv1 hnv2
        simp only [hif]
        have ih' := ih (i + 1)
          { numInputs := st.numInputs,
            numAux := st.numAux + 2,
            constraints := st.constraints ++
              [([(xlVarS i, 1), (Var.one, cs.getD i 0)],
                [(xlVarS i, 1), (Var.one, cs.getD i 0)],
                [(Var.aux st.numAux, 1)]),
               ([(Var.aux st.numAux, 1)],
                [(xlVarS i, 1), (Var.one, cs.getD i 0)],
                [(Var.aux (st.numAux + 1), 1), (xrVarS i, -1)])] }
          nv xlv (by simp) (by simp only [List.length_cons]; omega)
          hrest hinp (by simp only []; omega) hnv1 hnv2
        rw [← hxl1, ← hxr1] at ih'
        rw [ih']
        have hround :
            ([([(xlVarS i, 1), (Var.one, cs.getD i 0)],
               [(xlVarS i, 1), (Var.one, cs.getD i 0)],
               [(Var.aux st.numAux, 1)]),
              ([(Var.aux st.numAux, 1)],
               [(xlVarS i, 1), (Var.one, cs.getD i 0)],
               [(Var.aux (st.numAux + 1), 1), (xrVarS i, -1)])]
             : List (LC F × LC F × LC F)) =
            roundConstraints R (cs.getD i 0) i := by
          simp only [roundConstraints, tmpVarS, newXlVarS, hif, haux]
        rw [List.range'_succ, List.map_cons, List.flatten_cons, hround]
        simp [List.append_assoc]
      cases xlv with
      | some e =>
        obtain ⟨r, hxrv⟩ : ∃ r, xrv = some r := by
          cases xrv with
          | some r => exact ⟨r, rfl⟩
          | none => exact absurd (hsx rfl) (by simp)
        subst hxrv
        rw [synthLoop_cons_some]
        exact hrec (some ((e + cs.getD i 0) *
          ((e + cs.getD i 0) * (e + cs.getD i 0)) + r))
          (fun _ => rfl) (fun _ => rfl)
      | none =>
        have hef : evalW = false := by
          cases evalW with
          | false => rfl
          | true => exact absurd (hev rfl) (by simp)
        subst hef
        rw [synthLoop_cons_none]
        exact hrec none (by simp) (fun h => h)


theorem roundConstraints_flatten_length (R : Nat) (cs : List F) :
    ∀ n : Nat,
      (((List.range n).map
        fun i => roundConstraints R (cs.getD i 0) i).flatten).length = 2 * n := by
  intro n
  induction n with
  | zero => rfl
  | succ m ihm =>
    rw [List.range_succ, List.map_append, List.flatten_append,
      List.length_append, ihm]
    simp [roundConstraints]
    omega

/-- A successful synthesis (full witness, or the closure-ignoring parameter
generation) produces exactly the closed-form circuit shape. -/
theorem synthesize_shape (evalW : Bool) (R : Nat) (cs : List F)
    (h : cs.length = R) (hR : 1 ≤ R) (xlO xrO : Option F)
    (hev : evalW = true → xlO.isSome = true)
    (hsx : xlO.isSome = true → xrO.isSome = true) :
    synthesize evalW R xlO xrO cs = (circuitShape R cs, .ok) := by
  have hcs : cs ≠ [] := by
    intro hnil
    rw [hnil] at h
    simp at h
    omega
  have hmain := synthLoop_shape evalW R cs cs 0 ⟨0, 2, []⟩ xlO xrO hcs
    (by omega) (by simp) rfl (by norm_num) hev hsx
  have hxl0 : xlVarS 0 = Var.aux 0 := rfl
  have hxr0 : xrVarS 0 = Var.aux 1 := rfl
  rw [hxl0, hxr0] at hmain
  rw [synthesize, if_neg (by omega)]
  rw [alloc_ok evalW xlO initState hev]
  show (match alloc evalW xrO ({ initState with numAux := initState.numAux + 1 } : CSState F) with
        | none => (({ initState with numAux := initState.numAux + 1 } : CSState F),
            SynthResult.errMissing)
        | some (xr, st2) =>
            synthLoop evalW R cs 0 (Var.aux initState.numAux) xlO xr xrO st2) =
      (circuitShape R cs, .ok)
  rw [alloc_ok evalW xrO ({ initState with numAux := initState.numAux + 1 } : CSState F)
    (fun he => hsx (hev he))]
  show synthLoop evalW R cs 0 (Var.aux 0) xlO (Var.aux 1) xrO ⟨0, 2, []⟩ =
      (circuitShape R cs, .ok)
  rw [hmain]
  rw [h, ← List.range_eq_range']
  simp [circuitShape]

/-- Claim C4: for every round `i` in `0..R` (`R = MIMC_ROUNDS`),
`MiMCCircuit::synthesize` allocates one intermediate `tmp` variable and
enforces exactly two quadratic constraints, `(xl + c_i)^2 = tmp` and
`tmp * (xl + c_i) = new_xl - xr`, with `new_xr` taking the old `xl`; the
`new_xl` of the final round is the only variable allocated as a public input
(`alloc_input`), all other allocations being private, so a synthesized
circuit has exactly one public input and exactly `2R` enforced constraints
(the full shape is pinned down by `circuitShape`). -/
theorem claim_C4 (constants : List F) (h : constants.length = MIMC_ROUNDS) :
    (∀ a b : F,
      synthesize true MIMC_ROUNDS (some a) (some b) constants =
        (circuitShape MIMC_ROUNDS constants, .ok)) ∧
    synthesize false MIMC_ROUNDS none none constants =
      (circuitShape MIMC_ROUNDS constants, .ok) ∧
    (circuitShape MIMC_ROUNDS constants).numInputs = 1 ∧
    (circuitShape MIMC_ROUNDS constants).numAux = 2 * MIMC_ROUNDS + 1 ∧
    (circuitShape MIMC_ROUNDS constants).constraints.length = 2 * MIMC_ROUNDS ∧
    (∀ i, i < MIMC_ROUNDS - 1 → newXlVarS MIMC_ROUNDS i = Var.aux (2 * i + 3)) ∧
    newXlVarS MIMC_ROUNDS (MIMC_ROUNDS - 1) = Var.inp 0 := by
  refine ⟨fun a b => synthesize_shape true MIMC_ROUNDS constants h
      (by norm_num [MIMC_ROUNDS]) (some a) (some b) (fun _ => rfl) (fun _ => rfl),
    synthesize_shape false MIMC_ROUNDS constants h
      (by norm_num [MIMC_ROUNDS]) none none (by simp) (by simp),
    rfl, rfl,
    roundConstraints_flatten_length MIMC_ROUNDS constants MIMC_ROUNDS,
    fun i hi => by rw [newXlVarS, if_neg (by omega)],
    by rw [newXlVarS, if_pos rfl]⟩

/-- Witness for C4 at a concrete input over `ZMod 5`. -/
theorem claim_C4_witness :
    (List.replicate 255 (1 : ZMod 5)).length = MIMC_ROUNDS ∧
    ((∀ a b : ZMod 5,
        synthesize true MIMC_ROUNDS (some a) (some b) (List.replicate 255 1) =
          (circuitShape MIMC_ROUNDS (List.replicate 255 1), .ok)) ∧
     synthesize false MIMC_ROUNDS (none : Option (ZMod 5)) none
        (List.replicate 255 1) =
        (circuitShape MIMC_ROUNDS (List.replicate 255 1), .ok) ∧
     (circuitShape MIMC_ROUNDS (List.replicate 255 (1 : ZMod 5))).numInputs = 1 ∧
     (circuitShape MIMC_ROUNDS (List.replicate 255 (1 : ZMod 5))).numAux =
        2 * MIMC_ROUNDS + 1 ∧
     (circuitShape MIMC_ROUNDS
        (List.replicate 255 (1 : ZMod 5))).constraints.length = 2 * MIMC_ROUNDS ∧
     (∀ i, i < MIMC_ROUNDS - 1 → newXlVarS MIMC_ROUNDS i = Var.aux (2 * i + 3)) ∧
     newXlVarS MIMC_ROUNDS (MIMC_ROUNDS - 1) = Var.inp 0) :=
  ⟨by simp [MIMC_ROUNDS],
   claim_C4 (List.replicate 255 1) (by simp [MIMC_ROUNDS])⟩

/-- Claim C8: Groth16 circuit synthesis fails (a panic of the `assert_eq!`)
before any variable is allocated or constraint enforced whenever the
constants length differs from the compiled `MIMC_ROUNDS`; and synthesis with
no witness (`xl = None`, `xr = None`) surfaces the fatal
`AssignmentMissing` condition under a constraint system that demands
concrete witness values (proving synthesis). -/
theorem claim_C8 :
    ∀ (evalW : Bool) (xlO xrO : Option F) (constants : List F),
      ((initState : CSState F).numInputs = 0 ∧ (initState : CSState F).numAux = 0 ∧
        (initState : CSState F).constraints = []) ∧
      (constants.length ≠ MIMC_ROUNDS →
        synthesize evalW MIMC_ROUNDS xlO xrO constants = (initState, .crashed)) ∧
      (constants.length = MIMC_ROUNDS →
        synthesize true MIMC_ROUNDS none none constants = (initState, .errMissing)) := by
  intro evalW xlO xrO constants
  refine ⟨⟨rfl, rfl, rfl⟩, ?_, ?_⟩
  · intro hne
    rw [synthesize, if_pos hne]
  · intro heq
    rw [synthesize, if_neg (by omega)]
    rfl

/-- Witness for C8 at concrete inputs over `ZMod 5`. -/
theorem claim_C8_witness :
    synthesize true MIMC_ROUNDS (none : Option (ZMod 5)) none [] =
      (initState, SynthResult.crashed) ∧
    synthesize true MIMC_ROUNDS (none : Option (ZMod 5)) none
        (List.replicate 255 1) = (initState, SynthResult.errMissing) :=
  ⟨(claim_C8 true none none []).2.1 (by decide),
   (claim_C8 true none none (List.replicate 255 1)).2.2 (by simp [MIMC_ROUNDS])⟩

/-- Claim C10 (amended): with a partially missing witness, `xl = Some(v)` and
`xr = None`, proving-mode synthesis (a constraint system that evaluates
witness closures) returns `Err(SynthesisError::AssignmentMissing)` at the
`xr` allocation, before round 0; only setup-mode synthesis (a constraint
system that ignores witness closures, as in parameter generation) panics,
via the unwrap of `None` inside the `new_xl` witness computation of round 0,
right after round 0's first constraint is enforced; and the non-panicking
`AssignmentMissing` path is taken only when `xl` or `xr` is `None`. -/
theorem claim_C10 (constants : List F) (h : constants.length = MIMC_ROUNDS) (v : F) :
    synthesize true MIMC_ROUNDS (some v) none constants =
      (({ numInputs := 0, numAux := 1, constraints := [] } : CSState F), .errMissing) ∧
    synthesize false MIMC_ROUNDS (some v) none constants =
      (({ numInputs := 0, numAux := 3,
          constraints := [([(Var.aux 0, 1), (Var.one, constants.getD 0 0)],
                          [(Var.aux 0, 1), (Var.one, constants.getD 0 0)],
                          [(Var.aux 2, 1)])] } : CSState F), .crashed) ∧
    (∀ (evalW : Bool) (xlO xrO : Option F),
      (synthesize evalW MIMC_ROUNDS xlO xrO constants).2 = .errMissing →
      xlO = none ∨ xrO = none) := by
  refine ⟨?_, ?_, ?_⟩
  · rw [synthesize, if_neg (by omega)]
    rfl
  · cases constants with
    | nil => simp [MIMC_ROUNDS] at h
    | cons c rest =>
      rw [synthesize, if_neg (by omega)]
      show synthLoop false MIMC_ROUNDS (c :: rest) 0 (Var.aux 0) (some v)
        (Var.aux 1) none ⟨0, 2, []⟩ = _
      simp [synthLoop, alloc, enforce, newXlValue]
  · intro evalW xlO xrO hres
    by_contra hcon
    push_neg at hcon
    obtain ⟨hx, hr⟩ := hcon
    obtain ⟨a, rfl⟩ := Option.ne_none_iff_exists'.mp hx
    obtain ⟨b, rfl⟩ := Option.ne_none_iff_exists'.mp hr
    rw [synthesize_shape evalW MIMC_ROUNDS constants h (by norm_num [MIMC_ROUNDS])
      (some a) (some b) (fun _ => rfl) (fun _ => rfl)] at hres
    simp at hres

/-- Witness for the amended C10 at a concrete input over `ZMod 5`. -/
theorem claim_C10_witness :
    (List.replicate 255 (1 : ZMod 5)).length = MIMC_ROUNDS ∧
    (synthesize true MIMC_ROUNDS (some (1 : ZMod 5)) none
        (List.replicate 255 1) =
        ({ numInputs := 0, numAux := 1, constraints := [] },
         SynthResult.errMissing) ∧
     synthesize false MIMC_ROUNDS (some (1 : ZMod 5)) none
        (List.replicate 255 1) =
        ({ numInputs := 0, numAux := 3,
           constraints :=
             [([(Var.aux 0, 1),
                (Var.one, (List.replicate 255 (1 : ZMod 5)).getD 0 0)],
               [(Var.aux 0, 1),
                (Var.one, (List.replicate 255 (1 : ZMod 5)).getD 0 0)],
               [(Var.aux 2, 1)])] }, SynthResult.crashed) ∧
     (∀ (evalW : Bool) (xlO xrO : Option (ZMod 5)),
        (synthesize evalW MIMC_ROUNDS xlO xrO (List.replicate 255 1)).2 =
          SynthResult.errMissing →
        xlO = none ∨ xrO = none)) :=
  ⟨by simp [MIMC_ROUNDS],
   claim_C10 (List.replicate 255 1) (by simp [MIMC_ROUNDS]) 1⟩

/-- Counterexample to C10 as stated: at a concrete input with `xl = Some(1)`
and `xr = None`, proving-mode synthesis returns
`Err(SynthesisError::AssignmentMissing)` rather than panicking. -/
theorem claim_C10_counterexample :
    (synthesize true MIMC_ROUNDS (some (1 : ZMod 5)) none
        (List.replicate 255 1)).2 = SynthResult.errMissing ∧
    SynthResult.errMissing ≠ SynthResult.crashed := by
  constructor
  · rw [synthesize, if_neg (by simp [MIMC_ROUNDS])]
    rfl
  · decide

end Snark


/-! The bulletproof R1CS gadget (src/rust/src/hash/mimc/bulletproof.rs). -/

namespace Bulletproof

/-- Constant `GENS_CAPACITY` from bulletproof.rs: `(MIMC_ROUNDS + 1) * 2`. -/
def GENS_CAPACITY : Nat := (MIMC_ROUNDS + 1) * 2

/-- A dalek-bulletproofs R1CS variable: the constant `One`, a committed
high-level variable, or one of the three wires of a multiplication gate. -/
inductive BPVar where
  | one : BPVar
  | committed : Nat → BPVar
  | mulL : Nat → BPVar
  | mulR : Nat → BPVar
  | mulO : Nat → BPVar
deriving DecidableEq

/-- A linear combination: coefficient-tagged variables in build order;
addition concatenates term lists and subtracting a scalar appends a negated
`One` term. -/
abbrev BPLC (F : Type) := List (BPVar × F)

/-- Shape of the constraint system built by a prover or a verifier: the
number of multiplication gates, their linear-combination arguments in
order, and the constrained (equal-to-zero) linear combinations in order. -/
structure BPState (F : Type) where
  numMuls : Nat
  mulArgs : List (BPLC F × BPLC F)
  constraints : List (BPLC F)
deriving DecidableEq

/-- The constraint system before the gadget runs (as in `run()`, where the
gadget is the first and only constraint builder after commitments). -/
def emptyBP : BPState F := ⟨0, [], []⟩

/-- Method `cs.multiply(l, r)`: allocates one multiplication gate and returns its
left, right and output wires. -/
def multiply (st : BPState F) (l r : BPLC F) :
    (BPVar × BPVar × BPVar) × BPState F :=
  ((.mulL st.numMuls, .mulR st.numMuls, .mulO st.numMuls),
   { st with numMuls := st.numMuls + 1, mulArgs := st.mulArgs ++ [(l, r)] })

/-- Method `cs.constrain(lc)`. -/
def constrain (st : BPState F) (lc : BPLC F) : BPState F :=
  { st with constraints := st.constraints ++ [lc] }

/-- Structure `AllocatedScalar` from bulletproof.rs: a variable handle together with
the optional witness assignment (present for the prover, absent for the
verifier). -/
structure AllocatedScalar (F : Type) where
  var : BPVar
  assignment : Option F

/-- Function `constrain_lc_with_scalar`: constrains `lc - scalar` to zero; the
scalar converts to the linear combination `[(One, scalar)]` and the
subtraction appends its negation. -/
def constrain_lc_with_scalar (st : BPState F) (lc : BPLC F) (scalar : F) :
    BPState F :=
  constrain st (lc ++ [(BPVar.one, -scalar)])

/-- Round loop of `mimc_hash_2`: for `j in 0..mimc_rounds`, add the round
constant to the running left combination, square it with one multiplication
gate, cube it with a second gate (`l_sqr * l`), then shift
`right_v := left_v`, `left_v := cube + right_v`. -/
def mimcHash2Loop (mimc_rounds : Nat) (mimc_constants : List F)
    (j : Nat) (left_v right_v : BPLC F) (st : BPState F) :
    BPLC F × BPState F :=
  if h : j < mimc_rounds then
    let const_lc : BPLC F := [(BPVar.one, mimc_constants.getD j 0)]
    let left_plus_const : BPLC F := left_v ++ const_lc
    let m1 := multiply st left_plus_const left_plus_const
    let m2 := multiply m1.2 [(m1.1.2.2, 1)] [(m1.1.1, 1)]
    let tmp : BPLC F := [(m2.1.2.2, (1 : F))] ++ right_v
    mimcHash2Loop mimc_rounds mimc_constants (j + 1) tmp left_v m2.2
  else (left_v, st)
termination_by mimc_rounds - j
decreasing_by omega

/-- Function `mimc_hash_2`: runs the round loop from round 0 and returns the final
linear combination (the Rust function always returns `Ok`). -/
def mimc_hash_2 (st : BPState F) (left right : BPLC F)
    (mimc_rounds : Nat) (mimc_constants : List F) : BPLC F × BPState F :=
  mimcHash2Loop mimc_rounds mimc_constants 0 left right st

/-- Function `mimc_gadget`: feeds the two allocated scalars' variables to
`mimc_hash_2` and issues the single final constraint embedding the image.
Only `left.variable` and `right.variable` are read; the `assignment` fields
are never consulted. -/
def mimc_gadget (st : BPState F) (left right : AllocatedScalar F)
    (mimc_rounds : Nat) (mimc_constants : List F) (image : F) : BPState F :=
  let res := mimc_hash_2 st [(left.var, 1)] [(right.var, 1)] mimc_rounds
    mimc_constants
  constrain_lc_with_scalar res.2 res.1 image

/-- The running (left, right) linear combinations after `j` rounds, for a
gadget started from gate index 0. -/
def lrVS (lv rv : BPLC F) : Nat → BPLC F × BPLC F
  | 0 => (lv, rv)
  | j + 1 =>
    let p := lrVS lv rv j
    ([(BPVar.mulO (2 * j + 1), (1 : F))] ++ p.2, p.1)

/-- The multiplication-gate arguments for rounds `0..R-1`: gate `2j`
squares `left_j + c_j` (both arguments are the same combination), and gate
`2j + 1` multiplies the square's output wire by the left input wire to
obtain the cube. -/
def bpShape (lv rv : BPLC F) (R : Nat) (cs : List F) :
    List (BPLC F × BPLC F) :=
  ((List.range R).map fun j =>
    let lpc : BPLC F := (lrVS lv rv j).1 ++ [(BPVar.one, cs.getD j 0)]
    [(lpc, lpc),
     ([(BPVar.mulO (2 * j), (1 : F))], [(BPVar.mulL (2 * j), (1 : F))])]).flatten

/-- Invariant of the gadget's round loop from round `j` with `2j` gates
already allocated. -/
theorem mimcHash2Loop_shape (R : Nat) (cs : List F) (lv rv : BPLC F) :
    ∀ (n j : Nat) (st : BPState F), j + n = R → st.numMuls = 2 * j →
      mimcHash2Loop R cs j (lrVS lv rv j).1 (lrVS lv rv j).2 st =
        ((lrVS lv rv R).1,
         { numMuls := 2 * R,
           mulArgs := st.mulArgs ++
             ((List.range' j n).map fun k =>
               [((lrVS lv rv k).1 ++ [(BPVar.one, cs.getD k 0)],
                 (lrVS lv rv k).1 ++ [(BPVar.one, cs.getD k 0)]),
                ([(BPVar.mulO (2 * k), (1 : F))],
                 [(BPVar.mulL (2 * k), (1 : F))])]).flatten,
           constraints := st.constraints }) := by
  intro n
  induction n with
  | zero =>
    intro j st hj hm
    rw [mimcHash2Loop, dif_neg (by omega)]
    have hjR : j = R := by omega
    subst hjR
    simp [← hm]
  | succ n ihn =>
    intro j st hj hm
    rw [mimcHash2Loop, dif_pos (by omega)]
    simp only [multiply]
    rw [hm]
    have harg2 : (lrVS lv rv (j + 1)).2 = (lrVS lv rv j).1 := rfl
    have harg1 : ([(BPVar.mulO (2 * j + 1), (1 : F))] ++ (lrVS lv rv j).2)
        = (lrVS lv rv (j + 1)).1 := rfl
    rw [harg1, ← harg2]
    rw [ihn (j + 1)
      { numMuls := 2 * j + 1 + 1,
        mulArgs := st.mulArgs ++
          [((lrVS lv rv (j + 1)).2 ++ [(BPVar.one, cs.getD j 0)],
            (lrVS lv rv (j + 1)).2 ++ [(BPVar.one, cs.getD j 0)])] ++
          [([(BPVar.mulO (2 * j), (1 : F))], [(BPVar.mulL (2 * j), (1 : F))])],
        constraints := st.constraints }
      (by omega) (by show 2 * j + 1 + 1 = 2 * (j + 1); omega)]
    rw [List.range'_succ, List.map_cons, List.flatten_cons]
    simp [List.append_assoc, harg2]

theorem bpShape_eq_range' (lv rv : BPLC F) (R : Nat) (cs : List F) :
    bpShape lv rv R cs =
      ((List.range' 0 R).map fun k =>
        [((lrVS lv rv k).1 ++ [(BPVar.one, cs.getD k 0)],
          (lrVS lv rv k).1 ++ [(BPVar.one, cs.getD k 0)]),
         ([(BPVar.mulO (2 * k), (1 : F))],
          [(BPVar.mulL (2 * k), (1 : F))])]).flatten := by
  rw [bpShape, List.range_eq_range']

/-- The full gadget from the empty system: `2R` gates with the `bpShape`
arguments and exactly one constraint. -/
theorem mimc_gadget_shape (R : Nat) (cs : List F)
    (left right : AllocatedScalar F) (image : F) :
    mimc_gadget emptyBP left right R cs image =
      { numMuls := 2 * R,
        mulArgs := bpShape [(left.var, 1)] [(right.var, 1)] R cs,
        constraints :=
          [(lrVS [(left.var, 1)] [(right.var, 1)] R).1 ++
            [(BPVar.one, -image)]] } := by
  have hmain := mimcHash2Loop_shape R cs [(left.var, 1)] [(right.var, 1)]
    R 0 emptyBP (by omega) rfl
  rw [mimc_gadget, mimc_hash_2]
  show constrain_lc_with_scalar
      (mimcHash2Loop R cs 0 [(left.var, 1)] [(right.var, 1)] emptyBP).2
      (mimcHash2Loop R cs 0 [(left.var, 1)] [(right.var, 1)] emptyBP).1 image = _
  rw [show mimcHash2Loop R cs 0 [(left.var, 1)] [(right.var, 1)] emptyBP
      = mimcHash2Loop R cs 0 (lrVS [(left.var, 1)] [(right.var, 1)] 0).1
          (lrVS [(left.var, 1)] [(right.var, 1)] 0).2 emptyBP from rfl]
  rw [hmain]
  rw [constrain_lc_with_scalar, constrain, ← bpShape_eq_range']
  rfl

theorem bpShape_succ (lv rv : BPLC F) (m : Nat) (cs : List F) :
    bpShape lv rv (m + 1) cs =
      bpShape lv rv m cs ++
        [((lrVS lv rv m).1 ++ [(BPVar.one, cs.getD m 0)],
          (lrVS lv rv m).1 ++ [(BPVar.one, cs.getD m 0)]),
         ([(BPVar.mulO (2 * m), (1 : F))], [(BPVar.mulL (2 * m), (1 : F))])] := by
  rw [bpShape, List.range_succ, List.map_append, List.flatten_append, ← bpShape]
  simp

theorem bpShape_length (lv rv : BPLC F) (cs : List F) :
    ∀ R, (bpShape lv rv R cs).length = 2 * R := by
  intro R
  induction R with
  | zero => rfl
  | succ m ih =>
    rw [bpShape_succ, List.length_append, ih]
    simp
    omega

theorem bpShape_getD_sq (lv rv : BPLC F) (cs : List F) :
    ∀ R j, j < R →
      (bpShape lv rv R cs).getD (2 * j) ([], []) =
        ((lrVS lv rv j).1 ++ [(BPVar.one, cs.getD j 0)],
         (lrVS lv rv j).1 ++ [(BPVar.one, cs.getD j 0)]) := by
  intro R
  induction R with
  | zero => intro j hj; omega
  | succ m ih =>
    intro j hj
    rw [bpShape_succ]
    by_cases hjm : j < m
    · rw [List.getD_append _ _ _ _ (by rw [bpShape_length]; omega)]
      exact ih j hjm
    · have hje : j = m := by omega
      subst hje
      rw [List.getD_append_right _ _ _ _ (by rw [bpShape_length])]
      rw [bpShape_length, Nat.sub_self]
      rfl

/-- Claim C5: for every `R` and constants of length `R`, the bulletproof
gadget issues exactly two multiply calls per round (first squaring
`xl + c_i`, then multiplying the square by `xl + c_i` for the cube), for a
total of exactly `2R` multiplication gates, which fits within the generator
capacity `GENS_CAPACITY = (R + 1) * 2`; and it issues exactly one constrain
call overall, equating the final linear combination minus the scalar image
to zero, so the image is embedded in the constraint rather than passed as a
separate public input. -/
theorem claim_C5 (R : Nat) (cs : List F) (h : cs.length = R)
    (left right : AllocatedScalar F) (image : F) :
    (mimc_gadget emptyBP left right R cs image).numMuls = 2 * R ∧
    (mimc_gadget emptyBP left right R cs image).mulArgs =
      bpShape [(left.var, 1)] [(right.var, 1)] R cs ∧
    (∀ j < R,
      (mimc_gadget emptyBP left right R cs image).mulArgs.getD (2 * j) ([], []) =
        ((lrVS [(left.var, 1)] [(right.var, 1)] j).1 ++
           [(BPVar.one, cs.getD j 0)],
         (lrVS [(left.var, 1)] [(right.var, 1)] j).1 ++
           [(BPVar.one, cs.getD j 0)])) ∧
    (mimc_gadget emptyBP left right R cs image).constraints =
      [(lrVS [(left.var, 1)] [(right.var, 1)] R).1 ++ [(BPVar.one, -image)]] ∧
    2 * R ≤ (R + 1) * 2 ∧
    (R = MIMC_ROUNDS → 2 * R ≤ GENS_CAPACITY) := by
  rw [mimc_gadget_shape]
  refine ⟨rfl, rfl, ?_, rfl, by omega, ?_⟩
  · intro j hj
    exact bpShape_getD_sq _ _ _ R j hj
  · intro hR
    subst hR
    show 2 * MIMC_ROUNDS ≤ (MIMC_ROUNDS + 1) * 2
    omega

/-- Witness for C5 at a concrete input over `ZMod 5`. -/
theorem claim_C5_witness :
    ([1, 2] : List (ZMod 5)).length = 2 ∧
    ((mimc_gadget emptyBP (⟨BPVar.committed 0, some 3⟩ : AllocatedScalar (ZMod 5))
        ⟨BPVar.committed 1, none⟩ 2 [1, 2] 4).numMuls = 2 * 2 ∧
     (mimc_gadget emptyBP (⟨BPVar.committed 0, some 3⟩ : AllocatedScalar (ZMod 5))
        ⟨BPVar.committed 1, none⟩ 2 [1, 2] 4).mulArgs =
       bpShape [(BPVar.committed 0, 1)] [(BPVar.committed 1, 1)] 2 [1, 2] ∧
     (∀ j < 2,
       (mimc_gadget emptyBP (⟨BPVar.committed 0, some 3⟩ : AllocatedScalar (ZMod 5))
          ⟨BPVar.committed 1, none⟩ 2 [1, 2] 4).mulArgs.getD (2 * j) ([], []) =
         ((lrVS [(BPVar.committed 0, 1)] [(BPVar.committed 1, 1)] j).1 ++
            [(BPVar.one, ([1, 2] : List (ZMod 5)).getD j 0)],
          (lrVS [(BPVar.committed 0, 1)] [(BPVar.committed 1, 1)] j).1 ++
            [(BPVar.one, ([1, 2] : List (ZMod 5)).getD j 0)])) ∧
     (mimc_gadget emptyBP (⟨BPVar.committed 0, some 3⟩ : AllocatedScalar (ZMod 5))
        ⟨BPVar.committed 1, none⟩ 2 [1, 2] 4).constraints =
       [(lrVS [(BPVar.committed 0, 1)] [(BPVar.committed 1, 1)] 2).1 ++
          [(BPVar.one, -4)]] ∧
     2 * 2 ≤ (2 + 1) * 2 ∧
     (2 = MIMC_ROUNDS → 2 * 2 ≤ GENS_CAPACITY)) :=
  ⟨by decide, claim_C5 2 [1, 2] (by decide)
    ⟨BPVar.committed 0, some 3⟩ ⟨BPVar.committed 1, none⟩ 4⟩

/-- Claim C6: the constraint-system operations produced by `mimc_gadget`
depend only on the variable handles, round count, constants and image —
never on the optional `assignment` field of the `AllocatedScalar` inputs —
so driving the gadget once with prover-held witnesses (`assignment = Some`)
and once with verifier-held commitments (`assignment = None`) produces
identical constraint topologies. -/
theorem claim_C6 (st : BPState F) (v w : BPVar) (a1 a2 b1 b2 : Option F)
    (R : Nat) (cs : List F) (image : F) :
    mimc_gadget st ⟨v, a1⟩ ⟨w, b1⟩ R cs image =
      mimc_gadget st ⟨v, a2⟩ ⟨w, b2⟩ R cs image := rfl

end Bulletproof

/-! Seeded determinism (claim C9).

The `run()` entry points of the backends (stark.rs lines 42-58, snark.rs
lines 18-45, bulletproof.rs lines 16-37) draw the round constants first and
then the preimage `(xl, xr)` from one seeded `StdRng` stream, and compute
the image with the backend's `mimc`. -/

/-- Modelled from the spec: the seeded pseudo-random source (`StdRng` seeded
from a 32-byte seed) is an external library; per the spec (§2, §5), a seed
deterministically yields the stream of draws, modelled here as a function
`Nat → F` giving the successive draws of one seeded stream.  The STARK
backend's `run` draws the `R` round constants first, then `xl`, then `xr`,
and computes the image with `stark::mimc`. -/
def stark_setup (stream : Nat → F) (R : Nat) : List F × F × F × F :=
  let constants := (List.range R).map stream
  let xl := stream R
  let xr := stream (R + 1)
  (constants, xl, xr, Stark.mimc xl xr constants)

/-- Modelled from the spec: the Groth16 backend's `run` draws the constants
first, then consumes `crsDraws` further values while generating the trusted
setup (`generate_random_parameters` uses the same `rng`), then draws `xl`
and `xr`, and computes the image with `snark::mimc`. -/
def snark_setup (stream : Nat → F) (R crsDraws : Nat) : List F × F × F × F :=
  let constants := (List.range R).map stream
  let xl := stream (R + crsDraws)
  let xr := stream (R + crsDraws + 1)
  (constants, xl, xr, Snark.mimc xl xr constants)

/-- Modelled from the spec: the bulletproof backend's `run` draws the
constants first, then `xl`, then `xr` (blinding factors are drawn later,
after the preimage), and computes the image with `bulletproof::mimc`. -/
def bulletproof_setup (stream : Nat → F) (R : Nat) : List F × F × F × F :=
  let constants := (List.range R).map stream
  let xl := stream R
  let xr := stream (R + 1)
  (constants, xl, xr, Bulletproof.mimc xl xr R constants)

/-- Claim C9: constant, preimage and image generation is a deterministic
function of the 32-byte seed: for each backend, two independent runs seeded
with the same seed draw the round constants first and then the preimage from
the same seeded stream, and therefore produce identical constants, identical
preimage and identical image.  The seeded source is quantified as an
arbitrary deterministic function of the seed. -/
theorem claim_C9 (rng : List Nat → Nat → F) (seed1 seed2 : List Nat)
    (R crsDraws : Nat) (h : seed1 = seed2) :
    stark_setup (rng seed1) R = stark_setup (rng seed2) R ∧
    snark_setup (rng seed1) R crsDraws = snark_setup (rng seed2) R crsDraws ∧
    bulletproof_setup (rng seed1) R = bulletproof_setup (rng seed2) R := by
  subst h
  exact ⟨rfl, rfl, rfl⟩

/-- Witness for C9 at a concrete stream over `ZMod 5` and the repository's
seed. -/
theorem claim_C9_witness :
    RANDOMNESS_SEED = RANDOMNESS_SEED ∧
    (stark_setup ((fun (_ : List Nat) (n : Nat) => (n : ZMod 5)) RANDOMNESS_SEED) 3 =
       stark_setup ((fun (_ : List Nat) (n : Nat) => (n : ZMod 5)) RANDOMNESS_SEED) 3 ∧
     snark_setup ((fun (_ : List Nat) (n : Nat) => (n : ZMod 5)) RANDOMNESS_SEED) 3 2 =
       snark_setup ((fun (_ : List Nat) (n : Nat) => (n : ZMod 5)) RANDOMNESS_SEED) 3 2 ∧
     bulletproof_setup ((fun (_ : List Nat) (n : Nat) => (n : ZMod 5)) RANDOMNESS_SEED) 3 =
       bulletproof_setup ((fun (_ : List Nat) (n : Nat) => (n : ZMod 5)) RANDOMNESS_SEED) 3) :=
  ⟨rfl, claim_C9 (fun (_ : List Nat) (n : Nat) => (n : ZMod 5)) RANDOMNESS_SEED RANDOMNESS_SEED 3 2 rfl⟩


end NIZKP
